import Mathlib

/-!
# Verification of the Condotti module dependency resolver and attachment orchestrator

Shallow embedding of the core of the Condotti framework:

* `Condotti.add`                    (src/src/core/condotti.js, lines 105-131)
* `Condotti.prototype.calculate_`   (src/src/core/condotti.js, lines 384-451)
* `Condotti.prototype.attach_`      (src/src/core/condotti.js, lines 462-526)
* `Condotti.prototype.use`          (src/src/core/condotti.js, lines 220-372)
* `Sorting.prototype.topology`      (src/bootstrap/src/condotti/algorithm.js, lines 41-105)

Modelling conventions:

* Module names are `String`s, as in the source.
* JavaScript objects used as string-keyed maps (`Condotti.loaded_`,
  `C.dependencies_`, `C.attached_`) become association lists; `attached_`
  only ever stores `true` values, so it becomes a list of names.
* A module's entry function `fn` is observable through (a) the fact that it
  was invoked (recorded in an invocation log, in invocation order) and
  (b) whether it returns normally or throws; the latter is modelled by the
  `initOk` field of its descriptor.
* The recursive inner closures of `calculate_` and `topology` both iterate
  over the dependency list of the current node, propagating a thrown
  exception immediately; that loop is embedded by the generic sequencer
  `runSeq`.
* The source recursion has no fuel; the `Nat` fuel argument is a modelling
  artifact making the functions total.  `none` means "fuel exhausted";
  theorems supply enough fuel for this never to happen.
-/

set_option maxHeartbeats 1000000

namespace Condotti

/-- Error values of the Condotti core, mirroring the error classes of
`bootstrap/src/condotti/errors.js` that the core control flow constructs.
`circularDependency` carries (module being calculated, offending dependency),
as in `new C.errors.CircularDependencyError(name, current)`.
`moduleAttach` carries the name of the module whose entry function threw
(the source stores the whole descriptor, which is identified by its name). -/
inductive CondottiError where
  | circularDependency (module dependency : String)
  | moduleNotLoaded (module : String)
  | moduleAttach (module : String)
  | duplicatedModule (module : String)
  deriving Repr, DecidableEq

/-- A registered module descriptor: the object
`{name, fn, version, meta}` stored by `Condotti.add`.  `requires` is
`meta.requires` (defaulted to `[]` where the source reads
`meta.requires || []`), and `initOk` abstracts whether `fn` returns
normally (`true`) or throws (`false`). -/
structure ModuleDescriptor where
  name : String
  version : String
  requires : List String
  initOk : Bool
  deriving Repr, DecidableEq

/-- Lookup in the registry `Condotti.loaded_`: the JS membership test
`name in Condotti.loaded_` is `(lookupModule loaded name).isSome`. -/
def lookupModule : List ModuleDescriptor → String → Option ModuleDescriptor
  | [], _ => none
  | d :: rest, n => if d.name = n then some d else lookupModule rest n

/-- The direct-dependency edge function the registry induces:
`C.loaded_[n].meta.requires || []`, and `[]` for an unregistered name. -/
def requiresOf (loaded : List ModuleDescriptor) (n : String) : List String :=
  match lookupModule loaded n with
  | some d => d.requires
  | none => []

/-- Generic embedding of the dependency loop
`for (index = 0; index < length; index += 1) arguments.callee(deps[index]);`
shared by `topology` and `calculate_`: run `f` on each node in order,
threading the accumulated result list, aborting on a thrown error
(`some (.error _)`) or on fuel exhaustion (`none`). -/
def runSeq {E : Type} (f : List String → String → Option (Except E (List String))) :
    List String → List String → Option (Except E (List String))
  | result, [] => some (.ok result)
  | result, c :: cs =>
    match f result c with
    | some (.ok result') => runSeq f result' cs
    | other => other

/-- The recursive closure inside `Sorting.prototype.topology`
(src/bootstrap/src/condotti/algorithm.js, lines 51-95): three-coloured DFS.
`result` plays both roles of the source's `result` and `unique` (they are
updated together, so `unique` is exactly the membership set of `result`);
`trace` is the in-progress set, maintained functionally (the source adds
`current` on entry and deletes it on exit, which with properly nested
calls is exactly passing `current :: trace` to the children). -/
def topoVisit (next : String → List String) (id : String) :
    Nat → List String → List String → String → Option (Except CondottiError (List String))
  | 0, _, _, _ => none
  | fuel + 1, trace, result, current =>
    if current ∈ result then some (.ok result)
    else if current ∈ trace then some (.error (.circularDependency id current))
    else
      match runSeq (fun res c => topoVisit next id fuel (current :: trace) res c)
          result (next current) with
      | some (.ok result') => some (.ok (result' ++ [current]))
      | other => other

/-- The method `Sorting.prototype.topology(id, next)`: the generic topological
resolver.  Returns the dependency-first ordering of the nodes reachable
from `id` (including `id` itself, pushed last). -/
def topology (id : String) (next : String → List String) (fuel : Nat) :
    Option (Except CondottiError (List String)) :=
  topoVisit next id fuel [] [] id

/-- The static method `Condotti.add(name, fn, version, meta)` (src/src/core/condotti.js,
lines 105-131): register a module.  Returns the new registry together with
the error thrown for a duplicate name (`DuplicatedModuleError`), in which
case the registry is returned unchanged. -/
def condottiAdd (loaded : List ModuleDescriptor) (name : String) (version : String)
    (requires : List String) (initOk : Bool) :
    List ModuleDescriptor × Option CondottiError :=
  if (lookupModule loaded name).isSome then
    (loaded, some (.duplicatedModule name))
  else
    (loaded ++ [⟨name, version, requires, initOk⟩], none)

/-- The per-instance mutable state of a `Condotti` object:
`loaded_` (shared registry), `dependencies_` (memoized dependency lists)
and `attached_` (set of names whose entry function completed). -/
structure CState where
  loaded : List ModuleDescriptor
  dependencies : List (String × List String)
  attached : List String
  deriving Repr, DecidableEq

/-- Lookup in the dependency cache `C.dependencies_`. -/
def lookupDeps : List (String × List String) → String → Option (List String)
  | [], _ => none
  | (k, v) :: rest, n => if k = n then some v else lookupDeps rest n

/-- The recursive closure inside `Condotti.prototype.calculate_`
(src/src/core/condotti.js, lines 394-441).  Identical to `topoVisit`
except that the node must be present in `loaded_` (otherwise
`ModuleNotLoadedError` is thrown, checked before the `unique` and `trace`
tests, as in the source) and the edges come from `meta.requires || []`. -/
def calcVisit (loaded : List ModuleDescriptor) (name : String) :
    Nat → List String → List String → String → Option (Except CondottiError (List String))
  | 0, _, _, _ => none
  | fuel + 1, trace, dependencies, current =>
    match lookupModule loaded current with
    | none => some (.error (.moduleNotLoaded current))
    | some desc =>
      if current ∈ dependencies then some (.ok dependencies)
      else if current ∈ trace then some (.error (.circularDependency name current))
      else
        match runSeq (fun deps c => calcVisit loaded name fuel (current :: trace) deps c)
            dependencies desc.requires with
        | some (.ok deps') => some (.ok (deps' ++ [current]))
        | other => other

/-- The dependency list `calculate_(name)` computes (before storing it). -/
def calculateList (loaded : List ModuleDescriptor) (name : String) (fuel : Nat) :
    Option (Except CondottiError (List String)) :=
  calcVisit loaded name fuel [] [] name

/-- The method `Condotti.prototype.calculate_(name)`: computes the dependency list and
stores it in `C.dependencies_[name]` (here: prepended to the association
list, so that `lookupDeps` finds the new entry). -/
def calculate (C : CState) (name : String) (fuel : Nat) :
    Option (Except CondottiError CState) :=
  match calculateList C.loaded name fuel with
  | none => none
  | some (.error e) => some (.error e)
  | some (.ok deps) =>
    some (.ok { C with dependencies := (name, deps) :: C.dependencies })

/-- Equality of `Except` values over decidable types is decidable (used to
settle concrete scenarios by evaluation). -/
instance {E A : Type} [DecidableEq E] [DecidableEq A] : DecidableEq (Except E A) := fun x y =>
  match x, y with
  | .ok a, .ok b =>
    if h : a = b then .isTrue (by rw [h]) else .isFalse (fun hh => h (Except.ok.inj hh))
  | .error a, .error b =>
    if h : a = b then .isTrue (by rw [h]) else .isFalse (fun hh => h (Except.error.inj hh))
  | .ok _, .error _ => .isFalse (fun hh => Except.noConfusion hh)
  | .error _, .ok _ => .isFalse (fun hh => Except.noConfusion hh)

/-- First loop of `Condotti.prototype.attach_` (lines 477-490): for each
requested name, skip it if already attached, otherwise make sure its
dependency list is cached (running `calculate_` if not) and append that
list to the work stack.  A `calculate_` error propagates out of `attach_`
with the state mutated so far. -/
def attachCollect (fuel : Nat) (C : CState) :
    List String → List String → Option (CState × Except CondottiError (List String))
  | [], stack => some (C, .ok stack)
  | name :: rest, stack =>
    if name ∈ C.attached then attachCollect fuel C rest stack
    else
      match lookupDeps C.dependencies name with
      | some deps => attachCollect fuel C rest (stack ++ deps)
      | none =>
        match calculateList C.loaded name fuel with
        | none => none
        | some (.error e) => some (C, .error e)
        | some (.ok deps) =>
          attachCollect fuel { C with dependencies := (name, deps) :: C.dependencies }
            rest (stack ++ deps)

/-- Second loop of `Condotti.prototype.attach_` (lines 495-523): walk the
stack in order; skip names already attached; otherwise invoke the module's
entry function (recorded in the returned invocation log), mark the module
attached on normal return, or abort with `ModuleAttachError` if it throws.
The source reads `C.loaded_[name].fn` without a guard; a missing
descriptor there would crash with a TypeError, modelled as a
`moduleNotLoaded` error with nothing invoked. -/
def attachRun (C : CState) : List String → CState × List String × Option CondottiError
  | [] => (C, [], none)
  | name :: rest =>
    if name ∈ C.attached then attachRun C rest
    else
      match lookupModule C.loaded name with
      | none => (C, [], some (.moduleNotLoaded name))
      | some desc =>
        if desc.initOk then
          ((attachRun { C with attached := name :: C.attached } rest).1,
            name :: (attachRun { C with attached := name :: C.attached } rest).2.1,
            (attachRun { C with attached := name :: C.attached } rest).2.2)
        else
          (C, [name], some (.moduleAttach name))

/-- The method `Condotti.prototype.attach_(names)`: both loops in sequence.  The
result is the final state, the invocation log (names whose entry functions
were invoked, in order) and the error thrown, if any. -/
def attach (fuel : Nat) (C : CState) (names : List String) :
    Option (CState × List String × Option CondottiError) :=
  match attachCollect fuel C names [] with
  | none => none
  | some (C', .error e) => some (C', [], some e)
  | some (C', .ok stack) => some (attachRun C' stack)

/-- The `filter` closure of `Condotti.prototype.use` (lines 311-324):
drop names already registered and duplicates, preserving order.  `seen`
is the `unique` object. -/
def filterUnloaded (loaded : List ModuleDescriptor) : List String → List String → List String
  | [], _ => []
  | m :: rest, seen =>
    if (lookupModule loaded m).isSome ∨ m ∈ seen then filterUnloaded loaded rest seen
    else m :: filterUnloaded loaded rest (m :: seen)

/-- The dependency-collection part of the `done` closure of `use`
(lines 283-297): every freshly required name must now be registered
(otherwise `ModuleNotLoadedError` is thrown), and the raw dependency lists
are concatenated in order. -/
def collectDependencies (loaded : List ModuleDescriptor) :
    List String → Except CondottiError (List String)
  | [] => .ok []
  | n :: rest =>
    match lookupModule loaded n with
    | none => .error (.moduleNotLoaded n)
    | some d =>
      match collectDependencies loaded rest with
      | .ok deps => .ok (d.requires ++ deps)
      | .error e => .error e

/-- Errors a `use` callback can receive: either the error object reported
by the loader (the Fetch Port), propagated verbatim by the `done` closure
(the design document's `ModuleFetchError`), or an error thrown by the
Condotti core (`calculate_` / `attach_` / the `done` closure). -/
inductive UseError where
  | fetchFailed (cause : String)
  | condotti (e : CondottiError)
  deriving Repr, DecidableEq

/-- The `next`/`done` loop of `Condotti.prototype.use` (lines 265-369).
`fetch` is the Fetch Port (`C.loader_.require`): on success the returned
descriptors have been registered; on failure the loader's error is
reported.  `stack` is the queue of rounds (`stack.push` / `stack.shift`).
When the queue is exhausted, `attach_(params)` runs and the callback
receives its outcome; the result triple is (final state, invocation log,
error passed to the callback — `none` is a `null` error). -/
def useLoop (fetch : List String → Except String (List ModuleDescriptor)) :
    Nat → CState → List String → List (List String) →
    Option (CState × List String × Option UseError)
  | 0, _, _, _ => none
  | fuel + 1, C, params, stack =>
    match stack with
    | [] =>
      match attach fuel C params with
      | none => none
      | some (C', log, e) => some (C', log, e.map UseError.condotti)
    | requires :: stackRest =>
      if requires.isEmpty then useLoop fetch fuel C params stackRest
      else
        let filtered := filterUnloaded C.loaded requires []
        if filtered.isEmpty then useLoop fetch fuel C params stackRest
        else
          match fetch filtered with
          | .error e => some (C, [], some (.fetchFailed e))
          | .ok descs =>
            let C' := { C with loaded := C.loaded ++ descs }
            match collectDependencies C'.loaded filtered with
            | .error e => some (C', [], some (.condotti e))
            | .ok deps =>
              useLoop fetch fuel C' params
                (if deps.isEmpty then stackRest else stackRest ++ [deps])

/-- The method `Condotti.prototype.use(modules..., callback)` after argument
normalisation: the round queue starts as `[params]`. -/
def use (fetch : List String → Except String (List ModuleDescriptor)) (fuel : Nat)
    (C : CState) (params : List String) :
    Option (CState × List String × Option UseError) :=
  useLoop fetch fuel C params [params]

/-! ### Specification-level definitions -/

/-- The dependency edge relation of an edge function: `Edge next u v` iff
`v` is a direct dependency of `u`. -/
abbrev Edge (next : String → List String) (a b : String) : Prop := b ∈ next a

/-- Reachability (reflexive-transitive closure of the dependency edges):
`Reaches next root u` iff `u` is `root` or a transitive dependency of it. -/
def Reaches (next : String → List String) : String → String → Prop :=
  Relation.ReflTransGen (Edge next)

/-- The `trace` list of the DFS is a chain: the node below each entry is
one of its direct dependencies.  `TraceChain next ts cur` says `ts`,
read head-first, is a path of ancestors ending (at the head) in a direct
parent of `cur`. -/
def TraceChain (next : String → List String) : List String → String → Prop
  | [], _ => True
  | t :: ts, current => current ∈ next t ∧ TraceChain next ts t

/-- Position of the first occurrence of a name in a list (length of the
list if absent); avoids `BEq` so that all reasoning is propositional. -/
def idxOf : List String → String → Nat
  | [], _ => 0
  | b :: l, a => if b = a then 0 else idxOf l a + 1

/-- Invariant of the DFS accumulator: no duplicates, disjoint from the
in-progress trace, and closed under edges with every dependency placed
strictly before its dependent. -/
def TopoOk (next : String → List String) (trace result : List String) : Prop :=
  result.Nodup ∧ (∀ x ∈ result, x ∉ trace) ∧
    ∀ u ∈ result, ∀ v ∈ next u, v ∈ result ∧ idxOf result v < idxOf result u

/-- A list is self-ordered when every direct dependency of each element
occurs strictly before it (in particular the list contains it). -/
def SelfOrdered (next : String → List String) (l : List String) : Prop :=
  ∀ l₁ u l₂, l = l₁ ++ u :: l₂ → ∀ v ∈ next u, v ∈ l₁

/-- A work stack is safe relative to an attached set: every direct
dependency of each entry is already attached or occurs earlier in the
stack. -/
def StackOk (next : String → List String) (attached stack : List String) : Prop :=
  ∀ s₁ u s₂, stack = s₁ ++ u :: s₂ → ∀ v ∈ next u, v ∈ attached ∨ v ∈ s₁

/-- Coherence of the dependency cache: every stored list is self-ordered
for the current registry and contains its own key (as `calculate_`
produces). -/
def CacheOk (C : CState) : Prop :=
  ∀ n l, lookupDeps C.dependencies n = some l →
    SelfOrdered (requiresOf C.loaded) l ∧ n ∈ l

/-! ### Concrete fixtures used by witnesses and counterexamples -/

/-- Edge function of the three-module chain `A → B → C`. -/
def nextABC : String → List String :=
  fun n => if n = "A" then ["B"] else if n = "B" then ["C"] else []

/-- A topological rank certifying that `nextABC` is acyclic. -/
def rankABC : String → Nat :=
  fun n => if n = "A" then 2 else if n = "B" then 1 else 0

/-- Module `A` requiring `B`, initializer succeeds. -/
def descA : ModuleDescriptor := ⟨"A", "0.0.1", ["B"], true⟩

/-- Module `B` requiring `C`, initializer succeeds. -/
def descB : ModuleDescriptor := ⟨"B", "0.0.1", ["C"], true⟩

/-- Module `C` with no dependencies, initializer succeeds. -/
def descC : ModuleDescriptor := ⟨"C", "0.0.1", [], true⟩

/-- Registry with the chain `A → B → C`. -/
def loadedABC : List ModuleDescriptor := [descA, descB, descC]

/-- Fresh instance state over `loadedABC`. -/
def stateABC : CState := ⟨loadedABC, [], []⟩

/-- Module `A` requiring `B`, initializer throws. -/
def descAfail : ModuleDescriptor := ⟨"A", "0.0.1", ["B"], false⟩

/-- Module `B` with no dependencies, initializer succeeds. -/
def descBleaf : ModuleDescriptor := ⟨"B", "0.0.1", [], true⟩

/-- Registry where `A → [B]` and the initializer of `A` throws. -/
def loadedFail : List ModuleDescriptor := [descBleaf, descAfail]

/-- Fresh instance state over `loadedFail`. -/
def stateFail : CState := ⟨loadedFail, [], []⟩

/-- A single dependency-free module `A`. -/
def descSolo : ModuleDescriptor := ⟨"A", "0.0.1", [], true⟩

/-- Fresh instance state whose registry holds only `descSolo`. -/
def stateSolo : CState := ⟨[descSolo], [], []⟩

/-- A Fetch Port that can provide `A` (which requires the unregistered
`B`) but fails with a filesystem error for anything else. -/
def fetchFailB : List String → Except String (List ModuleDescriptor) :=
  fun ns => if ns = ["A"] then .ok [descA] else .error "ENOENT"

/-! ### Helper lemmas about `idxOf` -/

theorem idxOf_append_of_mem {l₁ : List String} {a : String} (h : a ∈ l₁) (l₂ : List String) :
    idxOf (l₁ ++ l₂) a = idxOf l₁ a := by
  induction l₁ with
  | nil => cases h
  | cons b t ih =>
    by_cases hb : b = a
    · simp [idxOf, hb]
    · have ht : a ∈ t := by
        rcases List.mem_cons.mp h with h' | h'
        · exact absurd h'.symm hb
        · exact h'
      simp [idxOf, hb, ih ht]

theorem idxOf_append_of_not_mem {l₁ : List String} {a : String} (h : a ∉ l₁) (l₂ : List String) :
    idxOf (l₁ ++ l₂) a = l₁.length + idxOf l₂ a := by
  induction l₁ with
  | nil => simp [idxOf]
  | cons b t ih =>
    have hb : b ≠ a := fun hh => h (hh ▸ List.mem_cons_self b t)
    have ht : a ∉ t := fun hh => h (List.mem_cons_of_mem _ hh)
    simp [idxOf, hb, ih ht]
    omega

theorem idxOf_lt_length {l : List String} {a : String} (h : a ∈ l) : idxOf l a < l.length := by
  induction l with
  | nil => cases h
  | cons b t ih =>
    by_cases hb : b = a
    · simp [idxOf, hb]
    · have ht : a ∈ t := by
        rcases List.mem_cons.mp h with h' | h'
        · exact absurd h'.symm hb
        · exact h'
      simp [idxOf, hb]
      exact ih ht

theorem mem_take_of_idxOf_lt {l : List String} {a : String} {i : Nat}
    (h : a ∈ l) (hi : idxOf l a < i) : a ∈ l.take i := by
  induction l generalizing i with
  | nil => cases h
  | cons b t ih =>
    cases i with
    | zero => omega
    | succ j =>
      by_cases hb : b = a
      · simp [List.take, hb]
      · have ht : a ∈ t := by
          rcases List.mem_cons.mp h with h' | h'
          · exact absurd h'.symm hb
          · exact h'
        have hj : idxOf t a < j := by
          have := hi
          simp [idxOf, hb] at this
          omega
        simpa [List.take] using Or.inr (ih ht hj)

/-- An order certificate in the `idxOf` form yields the positional,
split-based form `SelfOrdered`. -/
theorem selfOrdered_of_idx {next : String → List String} {l : List String}
    (hnd : l.Nodup)
    (hord : ∀ u ∈ l, ∀ v ∈ next u, v ∈ l ∧ idxOf l v < idxOf l u) :
    SelfOrdered next l := by
  intro l₁ u l₂ hsplit v hv
  have hu : u ∈ l := hsplit ▸ List.mem_append_right _ (List.mem_cons_self u l₂)
  obtain ⟨hvl, hlt⟩ := hord u hu v hv
  have hunotin : u ∉ l₁ := by
    subst hsplit
    rcases (List.nodup_append.mp hnd) with ⟨-, hnd₂, hdisj⟩
    intro hmem
    exact hdisj hmem (List.mem_cons_self u l₂)
  have hidxu : idxOf l u = l₁.length := by
    subst hsplit
    rw [idxOf_append_of_not_mem hunotin]
    simp [idxOf]
  have htake : v ∈ l.take l₁.length := mem_take_of_idxOf_lt hvl (by omega)
  have : l.take l₁.length = l₁ := by
    subst hsplit
    exact List.take_left l₁ (u :: l₂)
  exact this ▸ htake

/-! ### Helper lemmas about `runSeq` -/

theorem runSeq_ok_spec {E : Type}
    {f : List String → String → Option (Except E (List String))}
    {Inv : List String → Prop} {R : String → String → Prop}
    (hf : ∀ res c res', Inv res → f res c = some (.ok res') →
      res <+: res' ∧ c ∈ res' ∧ Inv res' ∧ ∀ x ∈ res', x ∈ res ∨ R c x) :
    ∀ ns res res'', Inv res → runSeq f res ns = some (.ok res'') →
      res <+: res'' ∧ (∀ c ∈ ns, c ∈ res'') ∧ Inv res'' ∧
        ∀ x ∈ res'', x ∈ res ∨ ∃ c ∈ ns, R c x := by
  intro ns
  induction ns with
  | nil =>
    intro res res'' hI h
    simp [runSeq] at h
    subst h
    exact ⟨⟨[], List.append_nil _⟩, by simp, hI, fun x hx => Or.inl hx⟩
  | cons c cs ih =>
    intro res res'' hI h
    simp only [runSeq] at h
    cases hfc : f res c with
    | none => rw [hfc] at h; cases h
    | some exc =>
      cases exc with
      | error e => rw [hfc] at h; cases h
      | ok res₁ =>
        rw [hfc] at h
        obtain ⟨hpre₁, hc₁, hI₁, hR₁⟩ := hf res c res₁ hI hfc
        obtain ⟨hpre₂, hcs, hI₂, hR₂⟩ := ih res₁ res'' hI₁ h
        refine ⟨hpre₁.trans hpre₂, ?_, hI₂, ?_⟩
        · intro d hd
          rcases List.mem_cons.mp hd with hd | hd
          · exact hd ▸ hpre₂.subset hc₁
          · exact hcs d hd
        · intro x hx
          rcases hR₂ x hx with hx₁ | ⟨d, hd, hRd⟩
          · rcases hR₁ x hx₁ with hx₀ | hRc
            · exact Or.inl hx₀
            · exact Or.inr ⟨c, List.mem_cons_self _ _, hRc⟩
          · exact Or.inr ⟨d, List.mem_cons_of_mem _ hd, hRd⟩

theorem runSeq_progress {E : Type}
    {f : List String → String → Option (Except E (List String))}
    {P : String → Prop}
    (hf : ∀ res c, P c → ∃ res', f res c = some (.ok res')) :
    ∀ ns res, (∀ c ∈ ns, P c) → ∃ res'', runSeq f res ns = some (.ok res'') := by
  intro ns
  induction ns with
  | nil => intro res _; exact ⟨res, by simp [runSeq]⟩
  | cons c cs ih =>
    intro res hP
    obtain ⟨res₁, h₁⟩ := hf res c (hP c (List.mem_cons_self _ _))
    obtain ⟨res'', h₂⟩ := ih res₁ (fun d hd => hP d (List.mem_cons_of_mem _ hd))
    exact ⟨res'', by simp [runSeq, h₁, h₂]⟩

theorem runSeq_error {E : Type}
    {f : List String → String → Option (Except E (List String))} {e : E} :
    ∀ ns res, runSeq f res ns = some (.error e) →
      ∃ c ∈ ns, ∃ res₀, f res₀ c = some (.error e) := by
  intro ns
  induction ns with
  | nil => intro res h; simp [runSeq] at h
  | cons c cs ih =>
    intro res h
    simp only [runSeq] at h
    cases hfc : f res c with
    | none => rw [hfc] at h; cases h
    | some exc =>
      cases exc with
      | error e' =>
        rw [hfc] at h
        cases h
        exact ⟨c, List.mem_cons_self _ _, res, hfc⟩
      | ok res₁ =>
        rw [hfc] at h
        obtain ⟨d, hd, res₀, hres₀⟩ := ih res₁ h
        exact ⟨d, List.mem_cons_of_mem _ hd, res₀, hres₀⟩

theorem runSeq_none {E : Type}
    {f : List String → String → Option (Except E (List String))} :
    ∀ ns res, runSeq f res ns = none →
      ∃ c ∈ ns, ∃ res₀, f res₀ c = none := by
  intro ns
  induction ns with
  | nil => intro res h; simp [runSeq] at h
  | cons c cs ih =>
    intro res h
    simp only [runSeq] at h
    cases hfc : f res c with
    | none => exact ⟨c, List.mem_cons_self _ _, res, hfc⟩
    | some exc =>
      cases exc with
      | error e' => rw [hfc] at h; cases h
      | ok res₁ =>
        rw [hfc] at h
        obtain ⟨d, hd, res₀, hres₀⟩ := ih res₁ h
        exact ⟨d, List.mem_cons_of_mem _ hd, res₀, hres₀⟩

theorem runSeq_mono {E : Type}
    {f g : List String → String → Option (Except E (List String))}
    (hfg : ∀ res c res', f res c = some (.ok res') → g res c = some (.ok res')) :
    ∀ ns res res'', runSeq f res ns = some (.ok res'') →
      runSeq g res ns = some (.ok res'') := by
  intro ns
  induction ns with
  | nil => intro res res'' h; simpa [runSeq] using h
  | cons c cs ih =>
    intro res res'' h
    simp only [runSeq] at h ⊢
    cases hfc : f res c with
    | none => rw [hfc] at h; cases h
    | some exc =>
      cases exc with
      | error e => rw [hfc] at h; cases h
      | ok res₁ =>
        rw [hfc] at h
        rw [hfg res c res₁ hfc]
        exact ih res₁ res'' h

theorem runSeq_congr {E : Type}
    {f g : List String → String → Option (Except E (List String))}
    {P : String → Prop}
    (hfg : ∀ res c, P c → f res c = g res c) :
    ∀ ns res, (∀ c ∈ ns, P c) → runSeq f res ns = runSeq g res ns := by
  intro ns
  induction ns with
  | nil => intro res _; rfl
  | cons c cs ih =>
    intro res hP
    have hc := hfg res c (hP c (List.mem_cons_self _ _))
    simp only [runSeq, ← hc]
    cases hfc : f res c with
    | none => rfl
    | some exc =>
      cases exc with
      | error e => rfl
      | ok res₁ => exact ih res₁ (fun d hd => hP d (List.mem_cons_of_mem _ hd))

/-! ### Helper lemmas about chains and reachability -/

theorem traceChain_cycle {next : String → List String} :
    ∀ (trace : List String) (current : String), TraceChain next trace current →
      ∀ x ∈ trace, Relation.TransGen (Edge next) x current := by
  intro trace
  induction trace with
  | nil => intro current _ x hx; cases hx
  | cons t ts ih =>
    intro current hchain x hx
    obtain ⟨hedge, hts⟩ := hchain
    rcases List.mem_cons.mp hx with hx | hx
    · exact hx ▸ Relation.TransGen.single hedge
    · exact (ih t hts x hx).tail hedge

/-- If a list contains `root` and is closed under the edge function, it
contains everything reachable from `root`. -/
theorem mem_of_reaches {next : String → List String} {l : List String} {root : String}
    (hclosed : ∀ u ∈ l, ∀ v ∈ next u, v ∈ l) (hroot : root ∈ l) :
    ∀ u, Reaches next root u → u ∈ l := by
  intro u hr
  induction hr with
  | refl => exact hroot
  | tail _ hedge ih => exact hclosed _ ih _ hedge

/-- A rank function decreasing along edges certifies acyclicity on a
closed node set. -/
theorem acyclic_of_rank {next : String → List String} {S : List String}
    (rank : String → Nat)
    (hclosed : ∀ u ∈ S, ∀ v ∈ next u, v ∈ S)
    (hrank : ∀ u ∈ S, ∀ v ∈ next u, rank v < rank u) :
    ∀ u ∈ S, ¬ Relation.TransGen (Edge next) u u := by
  have key : ∀ a b, Relation.TransGen (Edge next) a b → a ∈ S → b ∈ S ∧ rank b < rank a := by
    intro a b h
    induction h with
    | single hedge => intro ha; exact ⟨hclosed _ ha _ hedge, hrank _ ha _ hedge⟩
    | tail _ hedge ih =>
      intro ha
      obtain ⟨hb, hlt⟩ := ih ha
      exact ⟨hclosed _ hb _ hedge, by have := hrank _ hb _ hedge; omega⟩
  intro u hu hcyc
  have := (key u u hcyc hu).2
  omega

/-! ### Invariants of the generic DFS (`Sorting.prototype.topology`) -/

/-- Soundness of one DFS visit: on success the accumulator grows by a
suffix, the visited node is present, the invariant is preserved and every
new node is reachable from the visited node. -/
theorem topoVisit_ok_spec {next : String → List String} {id : String} :
    ∀ (fuel : Nat) (trace result : List String) (current : String) (result' : List String),
      TopoOk next trace result →
      topoVisit next id fuel trace result current = some (.ok result') →
      result <+: result' ∧ current ∈ result' ∧ TopoOk next trace result' ∧
        ∀ x ∈ result', x ∈ result ∨ Reaches next current x := by
  intro fuel
  induction fuel with
  | zero => intro trace result current result' _ h; simp [topoVisit] at h
  | succ fuel ih =>
    intro trace result current result' hI h
    simp only [topoVisit] at h
    by_cases hmem : current ∈ result
    · rw [if_pos hmem] at h
      have : result = result' := by simpa using h
      subst this
      exact ⟨⟨[], List.append_nil _⟩, hmem, hI, fun x hx => Or.inl hx⟩
    · rw [if_neg hmem] at h
      by_cases htr : current ∈ trace
      · rw [if_pos htr] at h; simp at h
      · rw [if_neg htr] at h
        cases hrs : runSeq (fun res c => topoVisit next id fuel (current :: trace) res c)
            result (next current) with
        | none => rw [hrs] at h; simp at h
        | some exc =>
          cases exc with
          | error e => rw [hrs] at h; simp at h
          | ok r₁ =>
            rw [hrs] at h
            have hres' : result' = r₁ ++ [current] := by simpa using h.symm
            subst hres'
            obtain ⟨hnd, hdisj, hord⟩ := hI
            have hI' : TopoOk next (current :: trace) result := by
              refine ⟨hnd, ?_, hord⟩
              intro x hx
              simp only [List.mem_cons, not_or]
              exact ⟨fun hh => hmem (hh ▸ hx), hdisj x hx⟩
            obtain ⟨hpre, hchildren, ⟨hnd₁, hdisj₁, hord₁⟩, hreach⟩ :=
              runSeq_ok_spec (fun res c res' hI₀ heq => ih (current :: trace) res c res' hI₀ heq)
                (next current) result r₁ hI' hrs
            have hcur₁ : current ∉ r₁ := fun hh => by
              have := hdisj₁ current hh
              exact this (List.mem_cons_self _ _)
            refine ⟨hpre.trans ⟨[current], rfl⟩, by simp, ?_, ?_⟩
            · refine ⟨?_, ?_, ?_⟩
              · rw [List.nodup_append]
                exact ⟨hnd₁, List.nodup_singleton _, fun x hx hx' => hcur₁ (by
                  rcases List.mem_singleton.mp hx' with rfl; exact hx)⟩
              · intro x hx
                rcases List.mem_append.mp hx with hx | hx
                · exact fun hh => hdisj₁ x hx (List.mem_cons_of_mem _ hh)
                · rcases List.mem_singleton.mp hx with rfl; exact htr
              · intro u hu v hv
                rcases List.mem_append.mp hu with hu | hu
                · obtain ⟨hv₁, hlt⟩ := hord₁ u hu v hv
                  refine ⟨List.mem_append_left _ hv₁, ?_⟩
                  rw [idxOf_append_of_mem hv₁, idxOf_append_of_mem hu]
                  exact hlt
                · rcases List.mem_singleton.mp hu with rfl
                  have hv₁ : v ∈ r₁ := hchildren v hv
                  refine ⟨List.mem_append_left _ hv₁, ?_⟩
                  rw [idxOf_append_of_mem hv₁, idxOf_append_of_not_mem hcur₁]
                  have := idxOf_lt_length hv₁
                  simp [idxOf]
                  omega
            · intro x hx
              rcases List.mem_append.mp hx with hx | hx
              · rcases hreach x hx with hx₀ | ⟨c, hc, hRc⟩
                · exact Or.inl hx₀
                · exact Or.inr (Relation.ReflTransGen.head hc hRc)
              · rcases List.mem_singleton.mp hx with rfl
                exact Or.inr Relation.ReflTransGen.refl

/-- With enough fuel relative to a closed superset of the reachable
nodes, the DFS never exhausts its fuel. -/
theorem topoVisit_not_none {next : String → List String} {id : String} {S : List String}
    (hclosed : ∀ u ∈ S, ∀ v ∈ next u, v ∈ S) :
    ∀ (fuel : Nat) (trace result : List String) (current : String),
      current ∈ S → (∀ x ∈ trace, x ∈ S) → trace.Nodup →
      S.length < fuel + trace.length →
      topoVisit next id fuel trace result current ≠ none := by
  intro fuel
  induction fuel with
  | zero =>
    intro trace result current _ htS hnd hcount _
    have : trace.length ≤ S.length :=
      (List.subperm_of_subset hnd fun x hx => htS x hx).length_le
    omega
  | succ fuel ih =>
    intro trace result current hc htS hnd hcount h
    simp only [topoVisit] at h
    by_cases hmem : current ∈ result
    · simp [hmem] at h
    · by_cases htr : current ∈ trace
      · simp [hmem, htr] at h
      · rw [if_neg hmem, if_neg htr] at h
        cases hrs : runSeq (fun res c => topoVisit next id fuel (current :: trace) res c)
            result (next current) with
        | none =>
          obtain ⟨c, hcns, res₀, h₀⟩ := runSeq_none _ _ hrs
          refine ih (current :: trace) res₀ c (hclosed current hc c hcns) ?_ ?_ ?_ h₀
          · intro x hx
            rcases List.mem_cons.mp hx with rfl | hx
            · exact hc
            · exact htS x hx
          · exact List.nodup_cons.mpr ⟨htr, hnd⟩
          · simp only [List.length_cons]; omega
        | some exc => rw [hrs] at h; cases exc <;> simp at h

/-- Characterisation of DFS failure: an error is always a
`CircularDependencyError` naming the original root and a node that is
reachable from the root and lies on a dependency cycle. -/
theorem topoVisit_error_spec {next : String → List String} {id : String} :
    ∀ (fuel : Nat) (trace result : List String) (current : String) (e : CondottiError),
      TraceChain next trace current → Reaches next id current →
      (∀ x ∈ trace, Reaches next id x) →
      topoVisit next id fuel trace result current = some (.error e) →
      ∃ v, e = .circularDependency id v ∧ Reaches next id v ∧
        Relation.TransGen (Edge next) v v := by
  intro fuel
  induction fuel with
  | zero => intro trace result current e _ _ _ h; simp [topoVisit] at h
  | succ fuel ih =>
    intro trace result current e hchain hreach htreach h
    simp only [topoVisit] at h
    by_cases hmem : current ∈ result
    · simp [hmem] at h
    · by_cases htr : current ∈ trace
      · rw [if_neg hmem, if_pos htr] at h
        have he : e = .circularDependency id current := by simpa using h.symm
        exact ⟨current, he, hreach, traceChain_cycle trace current hchain current htr⟩
      · rw [if_neg hmem, if_neg htr] at h
        cases hrs : runSeq (fun res c => topoVisit next id fuel (current :: trace) res c)
            result (next current) with
        | none => rw [hrs] at h; simp at h
        | some exc =>
          cases exc with
          | ok r₁ => rw [hrs] at h; simp at h
          | error e' =>
            rw [hrs] at h
            have he : e' = e := by simpa using h
            obtain ⟨c, hcns, res₀, h₀⟩ := runSeq_error _ _ hrs
            refine he ▸ ih (current :: trace) res₀ c e' ⟨hcns, hchain⟩ (hreach.tail hcns) ?_ h₀
            intro x hx
            rcases List.mem_cons.mp hx with rfl | hx
            · exact hreach
            · exact htreach x hx

/-- Unpacked soundness of `topology` at the top level. -/
theorem topology_ok_spec {root : String} {next : String → List String} {fuel : Nat}
    {l : List String} (h : topology root next fuel = some (.ok l)) :
    l.Nodup ∧ root ∈ l ∧ (∀ u, u ∈ l ↔ Reaches next root u) ∧
      (∀ u ∈ l, ∀ v ∈ next u, v ∈ l ∧ idxOf l v < idxOf l u) ∧
      ∃ l', l = l' ++ [root] := by
  have hI : TopoOk next [] [] := ⟨List.nodup_nil, by simp, by simp⟩
  obtain ⟨hpre, hmem, ⟨hnd, htr, hord⟩, hR⟩ := topoVisit_ok_spec fuel [] [] root l hI h
  refine ⟨hnd, hmem, ?_, hord, ?_⟩
  · intro u
    constructor
    · intro hu
      rcases hR u hu with h0 | hr
      · simp at h0
      · exact hr
    · exact mem_of_reaches (fun u hu v hv => (hord u hu v hv).1) hmem u
  · cases fuel with
    | zero => simp [topology, topoVisit] at h
    | succ f =>
      simp only [topology, topoVisit, List.not_mem_nil, if_neg, if_false] at h
      cases hrs : runSeq (fun res c => topoVisit next root f [root] res c) [] (next root) with
      | none => rw [hrs] at h; simp at h
      | some exc =>
        cases exc with
        | error e => rw [hrs] at h; simp at h
        | ok r₁ =>
          rw [hrs] at h
          exact ⟨r₁, by simpa using h.symm⟩

/-- The resolver `topology` does not exhaust its fuel when the fuel exceeds the size
of a closed superset of the reachable nodes. -/
theorem topology_not_none {root : String} {next : String → List String} {S : List String}
    {fuel : Nat} (hroot : root ∈ S)
    (hclosed : ∀ u ∈ S, ∀ v ∈ next u, v ∈ S) (hfuel : S.length < fuel) :
    topology root next fuel ≠ none :=
  topoVisit_not_none hclosed fuel [] [] root hroot (by simp) List.nodup_nil (by simpa)

/-- C1: For every acyclic dependency graph (given by an edge function
closed over a finite node set `S` containing `root`, with no dependency
cycle through any node of `S`) and enough fuel, the graph resolver
`topology` returns an ordered sequence in which each node reachable from
`root` appears exactly once (membership is exactly reachability and the
list has no duplicates), and every direct dependency `v` of every listed
node `u` appears strictly before `u`.  (`calculate_` agrees with
`topology`, see the refinement theorem for C9.) -/
theorem topology_acyclic_correct
    (next : String → List String) (root : String) (S : List String) (fuel : Nat)
    (hroot : root ∈ S)
    (hclosed : ∀ u ∈ S, ∀ v ∈ next u, v ∈ S)
    (hacyc : ∀ u ∈ S, ¬ Relation.TransGen (Edge next) u u)
    (hfuel : S.length < fuel) :
    ∃ l, topology root next fuel = some (.ok l) ∧ l.Nodup ∧
      (∀ u, u ∈ l ↔ Reaches next root u) ∧
      ∀ u ∈ l, ∀ v ∈ next u, v ∈ l ∧ idxOf l v < idxOf l u := by
  cases h : topology root next fuel with
  | none => exact absurd h (topology_not_none hroot hclosed hfuel)
  | some exc =>
    cases exc with
    | error e =>
      obtain ⟨v, -, hvreach, hvcyc⟩ :=
        topoVisit_error_spec fuel [] [] root e trivial Relation.ReflTransGen.refl
          (by simp) h
      exact absurd hvcyc (hacyc v (mem_of_reaches hclosed hroot v hvreach))
    | ok l =>
      obtain ⟨hnd, hrm, hiff, hord, -⟩ := topology_ok_spec h
      exact ⟨l, rfl, hnd, hiff, hord⟩

/-- C1 witness: the chain `A → B → C` with node set `["A","B","C"]`,
rank certificate `rankABC` and fuel 4. -/
theorem topology_acyclic_correct_witness :
    ∃ l, topology "A" nextABC 4 = some (.ok l) ∧ l.Nodup ∧
      (∀ u, u ∈ l ↔ Reaches nextABC "A" u) ∧
      ∀ u ∈ l, ∀ v ∈ nextABC u, v ∈ l ∧ idxOf l v < idxOf l u :=
  topology_acyclic_correct nextABC "A" ["A", "B", "C"] 4 (by decide) (by decide)
    (acyclic_of_rank rankABC (by decide) (by decide)) (by decide)

/-- A successful `calculate_` traversal is also a successful `topology`
traversal over the registry's edge function (every node it visited was
registered, so the registry guard never fired). -/
theorem calcVisit_ok_topo {loaded : List ModuleDescriptor} {name : String} :
    ∀ (fuel : Nat) (trace deps : List String) (current : String) (r : List String),
      calcVisit loaded name fuel trace deps current = some (.ok r) →
      topoVisit (requiresOf loaded) name fuel trace deps current = some (.ok r) := by
  intro fuel
  induction fuel with
  | zero => intro trace deps current r h; simp [calcVisit] at h
  | succ fuel ih =>
    intro trace deps current r h
    cases hlk : lookupModule loaded current with
    | none => simp [calcVisit, hlk] at h
    | some desc =>
      simp only [calcVisit, hlk] at h
      have hreq : requiresOf loaded current = desc.requires := by simp [requiresOf, hlk]
      simp only [topoVisit]
      by_cases hmem : current ∈ deps
      · rw [if_pos hmem] at h ⊢; exact h
      · rw [if_neg hmem] at h ⊢
        by_cases htr : current ∈ trace
        · rw [if_pos htr] at h; simp at h
        · rw [if_neg htr] at h ⊢
          rw [hreq]
          cases hrs : runSeq (fun d c => calcVisit loaded name fuel (current :: trace) d c)
              deps desc.requires with
          | none => rw [hrs] at h; simp at h
          | some exc =>
            cases exc with
            | error e => rw [hrs] at h; simp at h
            | ok r₁ =>
              rw [hrs] at h
              rw [runSeq_mono (fun res c res' h' => ih (current :: trace) res c res' h')
                desc.requires deps r₁ hrs]
              exact h

/-- On a node set closed under the registry's edges and entirely
registered, the traversals of `calculate_` and of `topology` compute
the same value (same result list, same error, same fuel use). -/
theorem calcVisit_eq_topoVisit {loaded : List ModuleDescriptor} {name : String}
    {S : List String}
    (hclosed : ∀ u ∈ S, ∀ v ∈ requiresOf loaded u, v ∈ S)
    (hload : ∀ u ∈ S, (lookupModule loaded u).isSome) :
    ∀ (fuel : Nat) (trace deps : List String) (current : String), current ∈ S →
      calcVisit loaded name fuel trace deps current =
        topoVisit (requiresOf loaded) name fuel trace deps current := by
  intro fuel
  induction fuel with
  | zero => intro trace deps current _; simp [calcVisit, topoVisit]
  | succ fuel ih =>
    intro trace deps current hcS
    have hsome := hload current hcS
    cases hlk : lookupModule loaded current with
    | none => rw [hlk] at hsome; simp at hsome
    | some desc =>
      have hreq : requiresOf loaded current = desc.requires := by simp [requiresOf, hlk]
      simp only [calcVisit, topoVisit, hlk]
      by_cases hmem : current ∈ deps
      · simp [hmem]
      · by_cases htr : current ∈ trace
        · simp [hmem, htr]
        · simp only [if_neg hmem, if_neg htr]
          rw [hreq,
            runSeq_congr (P := fun c => c ∈ S)
              (fun res c hc => ih (current :: trace) res c hc) desc.requires deps
              (fun c hc => hclosed current hcS c (by rw [hreq]; exact hc))]

/-- The errors `calculate_` can throw are only `CircularDependencyError`
(rooted at the queried name) or `ModuleNotLoadedError`. -/
theorem calcVisit_error_shape {loaded : List ModuleDescriptor} {name : String} :
    ∀ (fuel : Nat) (trace deps : List String) (current : String) (e : CondottiError),
      calcVisit loaded name fuel trace deps current = some (.error e) →
      (∃ v, e = .circularDependency name v) ∨ ∃ v, e = .moduleNotLoaded v := by
  intro fuel
  induction fuel with
  | zero => intro trace deps current e h; simp [calcVisit] at h
  | succ fuel ih =>
    intro trace deps current e h
    cases hlk : lookupModule loaded current with
    | none =>
      simp only [calcVisit, hlk] at h
      have : CondottiError.moduleNotLoaded current = e := by simpa using h
      exact Or.inr ⟨current, this.symm⟩
    | some desc =>
      simp only [calcVisit, hlk] at h
      by_cases hmem : current ∈ deps
      · simp [hmem] at h
      · by_cases htr : current ∈ trace
        · rw [if_neg hmem, if_pos htr] at h
          have : CondottiError.circularDependency name current = e := by simpa using h
          exact Or.inl ⟨current, this.symm⟩
        · rw [if_neg hmem, if_neg htr] at h
          cases hrs : runSeq (fun d c => calcVisit loaded name fuel (current :: trace) d c)
              deps desc.requires with
          | none => rw [hrs] at h; simp at h
          | some exc =>
            cases exc with
            | ok r₁ => rw [hrs] at h; simp at h
            | error e' =>
              rw [hrs] at h
              have he : e' = e := by simpa using h
              obtain ⟨c, -, res₀, h₀⟩ := runSeq_error _ _ hrs
              exact he ▸ ih (current :: trace) res₀ c e' h₀

/-- Unpacked soundness of a successful root `calculate_` traversal. -/
theorem calcVisit_root_ok_spec {loaded : List ModuleDescriptor} {n : String} {fuel : Nat}
    {l : List String} (h : calcVisit loaded n fuel [] [] n = some (.ok l)) :
    l.Nodup ∧ n ∈ l ∧ (∀ u, u ∈ l ↔ Reaches (requiresOf loaded) n u) ∧
      (∀ u ∈ l, ∀ v ∈ requiresOf loaded u, v ∈ l ∧ idxOf l v < idxOf l u) ∧
      SelfOrdered (requiresOf loaded) l ∧ l.getLast? = some n := by
  have htopo : topology n (requiresOf loaded) fuel = some (.ok l) :=
    calcVisit_ok_topo fuel [] [] n l h
  obtain ⟨hnd, hm, hiff, hord, l', hl'⟩ := topology_ok_spec htopo
  refine ⟨hnd, hm, hiff, hord, selfOrdered_of_idx hnd hord, ?_⟩
  rw [hl']
  exact List.getLast?_concat _

/-- C9: the registry-specific resolver and the generic topological sorter
are equivalent.  When every name in a closed node set containing `name`
is registered, `calculateList` (the sequence `calculate_` computes and
stores) equals `topology` over the edge function "registered direct
dependencies, `[]` if undeclared" — at every fuel, for successes,
cycle errors (same root, same offending node) and fuel exhaustion alike —
and a successful `calculate_` stores exactly the `topology` output in the
dependency cache. -/
theorem calculate_refines_topology
    (loaded : List ModuleDescriptor) (name : String) (S : List String)
    (hroot : name ∈ S)
    (hclosed : ∀ u ∈ S, ∀ v ∈ requiresOf loaded u, v ∈ S)
    (hload : ∀ u ∈ S, (lookupModule loaded u).isSome) :
    (∀ fuel, calculateList loaded name fuel = topology name (requiresOf loaded) fuel) ∧
      ∀ (fuel : Nat) (C C' : CState), C.loaded = loaded →
        calculate C name fuel = some (.ok C') →
        ∃ l, topology name (requiresOf loaded) fuel = some (.ok l) ∧
          lookupDeps C'.dependencies name = some l := by
  have heq : ∀ fuel, calculateList loaded name fuel = topology name (requiresOf loaded) fuel :=
    fun fuel => calcVisit_eq_topoVisit hclosed hload fuel [] [] name hroot
  refine ⟨heq, ?_⟩
  intro fuel C C' hCl hcalc
  subst hCl
  simp only [calculate] at hcalc
  cases hcl : calculateList C.loaded name fuel with
  | none => rw [hcl] at hcalc; simp at hcalc
  | some exc =>
    cases exc with
    | error e => rw [hcl] at hcalc; simp at hcalc
    | ok deps =>
      rw [hcl] at hcalc
      have hC' : C' = { C with dependencies := (name, deps) :: C.dependencies } := by
        simpa using hcalc.symm
      refine ⟨deps, (heq fuel) ▸ hcl, ?_⟩
      rw [hC']
      simp [lookupDeps]

/-- C9 witness: the chain registry `loadedABC` over node set
`["A","B","C"]`, instantiated at fuel 4 and the fresh state. -/
theorem calculate_refines_topology_witness :
    calculateList loadedABC "A" 4 = topology "A" (requiresOf loadedABC) 4 ∧
      ∃ l, topology "A" (requiresOf loadedABC) 4 = some (.ok l) ∧
        lookupDeps [("A", ["C", "B", "A"])] "A" = some l := by
  obtain ⟨heq, hstore⟩ :=
    calculate_refines_topology loadedABC "A" ["A", "B", "C"] (by decide) (by decide) (by decide)
  refine ⟨heq 4, ?_⟩
  have := hstore 4 stateABC ⟨loadedABC, [("A", ["C", "B", "A"])], []⟩ rfl (by decide)
  simpa using this

/-- C8 counterexample: for the dependency-free module `A`, a successful
`calculate_` stores the cache entry `["A"]`, which contains the resolved
name `A` itself — contradicting the claim that the resolved name does not
appear in its own cached dependency list. -/
theorem calculate_cache_contains_name :
    calculate stateSolo "A" 1 = some (.ok ⟨[descSolo], [("A", ["A"])], []⟩) ∧
      lookupDeps [("A", ["A"])] "A" = some ["A"] ∧ "A" ∈ ["A"] := by
  refine ⟨by decide, by decide, by decide⟩

/-- C8 (amended): the dependency-cache entry stored by a successful
`calculate_` is the memoized transitive closure in dependency-first order
*including* the resolved name itself, which appears exactly once, as the
final element. -/
theorem calculate_cache_spec
    (C : CState) (name : String) (fuel : Nat) (C' : CState)
    (h : calculate C name fuel = some (.ok C')) :
    ∃ l, lookupDeps C'.dependencies name = some l ∧ l.Nodup ∧
      (∀ u, u ∈ l ↔ Reaches (requiresOf C.loaded) name u) ∧
      (∀ u ∈ l, ∀ v ∈ requiresOf C.loaded u, v ∈ l ∧ idxOf l v < idxOf l u) ∧
      l.getLast? = some name ∧ name ∈ l := by
  simp only [calculate] at h
  cases hcl : calculateList C.loaded name fuel with
  | none => rw [hcl] at h; simp at h
  | some exc =>
    cases exc with
    | error e => rw [hcl] at h; simp at h
    | ok deps =>
      rw [hcl] at h
      have hC' : C' = { C with dependencies := (name, deps) :: C.dependencies } := by
        simpa using h.symm
      obtain ⟨hnd, hm, hiff, hord, -, hlast⟩ := calcVisit_root_ok_spec hcl
      refine ⟨deps, ?_, hnd, hiff, hord, hlast, hm⟩
      rw [hC']
      simp [lookupDeps]

/-- C8 amended-claim witness: the dependency-free module `A` at fuel 1. -/
theorem calculate_cache_spec_witness :
    ∃ l, lookupDeps (⟨[descSolo], [("A", ["A"])], []⟩ : CState).dependencies "A" = some l ∧
      l.Nodup ∧
      (∀ u, u ∈ l ↔ Reaches (requiresOf stateSolo.loaded) "A" u) ∧
      (∀ u ∈ l, ∀ v ∈ requiresOf stateSolo.loaded u, v ∈ l ∧ idxOf l v < idxOf l u) ∧
      l.getLast? = some "A" ∧ "A" ∈ l :=
  calculate_cache_spec stateSolo "A" 1 ⟨[descSolo], [("A", ["A"])], []⟩ (by decide)

/-! ### Helper lemmas about `StackOk` and `SelfOrdered` -/

theorem stackOk_head {next : String → List String} {att : List String}
    {u₀ : String} {rest : List String} (h : StackOk next att (u₀ :: rest)) :
    ∀ v ∈ next u₀, v ∈ att := by
  intro v hv
  rcases h [] u₀ rest rfl v hv with h' | h'
  · exact h'
  · cases h'

theorem stackOk_cons_of_attached {next : String → List String} {att : List String}
    {u₀ : String} {rest : List String} (h : StackOk next att (u₀ :: rest))
    (hu₀ : u₀ ∈ att) : StackOk next att rest := by
  intro s₁ u s₂ hsplit v hv
  rcases h (u₀ :: s₁) u s₂ (by rw [hsplit]; rfl) v hv with h' | h'
  · exact Or.inl h'
  · rcases List.mem_cons.mp h' with rfl | h'
    · exact Or.inl hu₀
    · exact Or.inr h'

theorem stackOk_cons_of_new {next : String → List String} {att : List String}
    {u₀ : String} {rest : List String} (h : StackOk next att (u₀ :: rest)) :
    StackOk next (u₀ :: att) rest := by
  intro s₁ u s₂ hsplit v hv
  rcases h (u₀ :: s₁) u s₂ (by rw [hsplit]; rfl) v hv with h' | h'
  · exact Or.inl (List.mem_cons_of_mem _ h')
  · rcases List.mem_cons.mp h' with rfl | h'
    · exact Or.inl (List.mem_cons_self _ _)
    · exact Or.inr h'

theorem stackOk_append_selfOrdered {next : String → List String} {att : List String}
    {a b : List String} (ha : StackOk next att a) (hb : SelfOrdered next b) :
    StackOk next att (a ++ b) := by
  intro s₁ u s₂ hsplit v hv
  rcases List.append_eq_append_iff.mp hsplit with ⟨t, hs₁, hb'⟩ | ⟨t, ha', ht⟩
  · exact Or.inr (hs₁ ▸ List.mem_append_right _ (hb t u s₂ hb' v hv))
  · cases t with
    | nil =>
      simp only [List.nil_append] at ht
      have := hb [] u s₂ ht.symm v hv
      cases this
    | cons w t' =>
      rcases List.cons.injEq .. ▸ ht with ⟨rfl, ht'⟩
      rcases ha s₁ u t' (by rw [ha']) v hv with h' | h'
      · exact Or.inl h'
      · exact Or.inr h'

theorem selfOrdered_stackOk {next : String → List String} {att : List String}
    {l : List String} (h : SelfOrdered next l) : StackOk next att l :=
  fun s₁ u s₂ hsplit v hv => Or.inr (h s₁ u s₂ hsplit v hv)

/-! ### Invariants of the second `attach_` loop (`attachRun`) -/

/-- The second loop only mutates `attached_`. -/
theorem attachRun_state : ∀ (stack : List String) (C : CState),
    (attachRun C stack).1.loaded = C.loaded ∧
      (attachRun C stack).1.dependencies = C.dependencies := by
  intro stack
  induction stack with
  | nil => intro C; exact ⟨rfl, rfl⟩
  | cons name rest ih =>
    intro C
    simp only [attachRun]
    by_cases hat : name ∈ C.attached
    · rw [if_pos hat]; exact ih C
    · rw [if_neg hat]
      cases hlk : lookupModule C.loaded name with
      | none => simp
      | some desc =>
        simp only [hlk]
        by_cases hok : desc.initOk
        · rw [if_pos hok]
          exact ih { C with attached := name :: C.attached }
        · rw [if_neg hok]; exact ⟨rfl, rfl⟩

/-- Names attached before the loop stay attached and are never invoked. -/
theorem attachRun_mono : ∀ (stack : List String) (C : CState) (x : String),
    x ∈ C.attached →
    x ∈ (attachRun C stack).1.attached ∧ x ∉ (attachRun C stack).2.1 := by
  intro stack
  induction stack with
  | nil => intro C x hx; exact ⟨hx, by simp [attachRun]⟩
  | cons name rest ih =>
    intro C x hx
    simp only [attachRun]
    by_cases hat : name ∈ C.attached
    · rw [if_pos hat]; exact ih C x hx
    · rw [if_neg hat]
      cases hlk : lookupModule C.loaded name with
      | none => exact ⟨hx, by simp⟩
      | some desc =>
        simp only [hlk]
        by_cases hok : desc.initOk
        · rw [if_pos hok]
          obtain ⟨h₁, h₂⟩ := ih { C with attached := name :: C.attached } x
            (List.mem_cons_of_mem _ hx)
          refine ⟨h₁, ?_⟩
          intro hmem
          rcases List.mem_cons.mp hmem with rfl | hmem
          · exact hat hx
          · exact h₂ hmem
        · rw [if_neg hok]
          refine ⟨hx, ?_⟩
          intro hmem
          rcases List.mem_singleton.mp hmem with rfl
          exact hat hx

/-- Full specification of a successful second loop: the attached set grows
by exactly the invoked names, no name is invoked twice, only
not-yet-attached names are invoked, every stack entry ends up attached,
and every invoked name has a registered descriptor whose entry function
returned normally. -/
theorem attachRun_success_spec : ∀ (stack : List String) (C C' : CState) (Δ : List String),
    attachRun C stack = (C', Δ, none) →
    (∀ x, x ∈ C'.attached ↔ x ∈ C.attached ∨ x ∈ Δ) ∧ Δ.Nodup ∧
      (∀ x ∈ Δ, x ∉ C.attached) ∧ (∀ u ∈ stack, u ∈ C'.attached) ∧
      ∀ x ∈ Δ, ∃ d, lookupModule C.loaded x = some d ∧ d.initOk = true := by
  intro stack
  induction stack with
  | nil =>
    intro C C' Δ h
    simp only [attachRun, Prod.mk.injEq] at h
    obtain ⟨h₁, h₂, -⟩ := h
    subst h₁; subst h₂
    exact ⟨fun x => by simp, List.nodup_nil, by simp, by simp, by simp⟩
  | cons name rest ih =>
    intro C C' Δ h
    simp only [attachRun] at h
    by_cases hat : name ∈ C.attached
    · rw [if_pos hat] at h
      obtain ⟨hiff, hnd, hfresh, hstack, hdesc⟩ := ih C C' Δ h
      refine ⟨hiff, hnd, hfresh, ?_, hdesc⟩
      intro u hu
      rcases List.mem_cons.mp hu with rfl | hu
      · exact (hiff u).mpr (Or.inl hat)
      · exact hstack u hu
    · rw [if_neg hat] at h
      cases hlk : lookupModule C.loaded name with
      | none => simp [hlk] at h
      | some desc =>
        simp only [hlk] at h
        by_cases hok : desc.initOk
        · rw [if_pos hok] at h
          simp only [Prod.mk.injEq] at h
          obtain ⟨h₁, h₂, h₃⟩ := h
          obtain ⟨hiff, hnd, hfresh, hstack, hdesc⟩ :=
            ih { C with attached := name :: C.attached }
              (attachRun { C with attached := name :: C.attached } rest).1
              (attachRun { C with attached := name :: C.attached } rest).2.1
              (by rw [← h₃])
          subst h₁; subst h₂
          refine ⟨?_, ?_, ?_, ?_, ?_⟩
          · intro x
            rw [hiff x]
            simp only [List.mem_cons]
            tauto
          · refine List.nodup_cons.mpr ⟨?_, hnd⟩
            intro hmem
            exact hfresh name hmem (List.mem_cons_self _ _)
          · intro x hx
            rcases List.mem_cons.mp hx with rfl | hx
            · exact hat
            · exact fun hc => hfresh x hx (List.mem_cons_of_mem _ hc)
          · intro u hu
            rcases List.mem_cons.mp hu with rfl | hu
            · exact (hiff u).mpr (Or.inl (List.mem_cons_self _ _))
            · exact hstack u hu
          · intro x hx
            rcases List.mem_cons.mp hx with rfl | hx
            · exact ⟨desc, hlk, hok⟩
            · exact hdesc x hx
        · rw [if_neg hok] at h
          simp at h
/-- Full specification of a second loop aborted by a throwing entry
function: the log is the successfully invoked prefix followed by the
failing module, the failing module has a registered descriptor whose
entry function throws, the attached set grows by exactly the prefix, and
the failing module is not attached. -/
theorem attachRun_attach_error_spec :
    ∀ (stack : List String) (C C' : CState) (Δ : List String) (m : String),
    attachRun C stack = (C', Δ, some (.moduleAttach m)) →
    ∃ Δ', Δ = Δ' ++ [m] ∧
      (∃ d, lookupModule C.loaded m = some d ∧ d.initOk = false) ∧
      (∀ x, x ∈ C'.attached ↔ x ∈ C.attached ∨ x ∈ Δ') ∧ m ∉ C'.attached := by
  intro stack
  induction stack with
  | nil =>
    intro C C' Δ m h
    simp [attachRun, Prod.mk.injEq] at h
  | cons name rest ih =>
    intro C C' Δ m h
    simp only [attachRun] at h
    by_cases hat : name ∈ C.attached
    · rw [if_pos hat] at h
      exact ih C C' Δ m h
    · rw [if_neg hat] at h
      cases hlk : lookupModule C.loaded name with
      | none => simp [hlk] at h
      | some desc =>
        simp only [hlk] at h
        by_cases hok : desc.initOk
        · rw [if_pos hok] at h
          simp only [Prod.mk.injEq] at h
          obtain ⟨h₁, h₂, h₃⟩ := h
          obtain ⟨Δ', hΔ', hdesc, hiff, hmnot⟩ :=
            ih { C with attached := name :: C.attached }
              (attachRun { C with attached := name :: C.attached } rest).1
              (attachRun { C with attached := name :: C.attached } rest).2.1 m
              (by rw [← h₃])
          subst h₁
          refine ⟨name :: Δ', ?_, hdesc, ?_, hmnot⟩
          · rw [← h₂, hΔ']; rfl
          · intro x
            rw [hiff x]
            simp only [List.mem_cons]
            tauto
        · rw [if_neg hok] at h
          simp only [Prod.mk.injEq] at h
          obtain ⟨h₁, h₂, h₃⟩ := h
          have hm : name = m := by
            have := Option.some.inj h₃
            exact CondottiError.moduleAttach.inj this
          subst h₁
          subst hm
          refine ⟨[], by rw [← h₂]; rfl, ⟨desc, hlk, by simpa using hok⟩, ?_, hat⟩
          intro x
          simp
/-- Ordering guarantee of the second loop: whenever a module is invoked,
each of its direct dependencies (under any edge function for which the
stack is `StackOk`) was attached before the call or invoked earlier. -/
theorem attachRun_order {next : String → List String} :
    ∀ (stack : List String) (C C' : CState) (Δ : List String)
      (e : Option CondottiError),
    StackOk next C.attached stack → attachRun C stack = (C', Δ, e) →
    ∀ l₁ u l₂, Δ = l₁ ++ u :: l₂ → ∀ v ∈ next u, v ∈ C.attached ∨ v ∈ l₁ := by
  intro stack
  induction stack with
  | nil =>
    intro C C' Δ e _ h l₁ u l₂ hsplit v hv
    simp only [attachRun, Prod.mk.injEq] at h
    obtain ⟨-, h₂, -⟩ := h
    rw [← h₂] at hsplit
    exact absurd hsplit.symm (List.append_ne_nil_of_right_ne_nil _ (by simp))
  | cons name rest ih =>
    intro C C' Δ e hso h l₁ u l₂ hsplit v hv
    simp only [attachRun] at h
    by_cases hat : name ∈ C.attached
    · rw [if_pos hat] at h
      exact ih C C' Δ e (stackOk_cons_of_attached hso hat) h l₁ u l₂ hsplit v hv
    · rw [if_neg hat] at h
      cases hlk : lookupModule C.loaded name with
      | none =>
        simp only [hlk, Prod.mk.injEq] at h
        obtain ⟨-, h₂, -⟩ := h
        rw [← h₂] at hsplit
        exact absurd hsplit.symm (List.append_ne_nil_of_right_ne_nil _ (by simp))
      | some desc =>
        simp only [hlk] at h
        by_cases hok : desc.initOk
        · rw [if_pos hok] at h
          simp only [Prod.mk.injEq] at h
          obtain ⟨h₁, h₂, h₃⟩ := h
          rw [← h₂] at hsplit
          cases l₁ with
          | nil =>
            simp only [List.nil_append] at hsplit
            obtain ⟨rfl, -⟩ := List.cons.inj hsplit
            exact Or.inl (stackOk_head hso v hv)
          | cons w l₁' =>
            obtain ⟨rfl, hsplit'⟩ := List.cons.inj hsplit
            have := ih { C with attached := name :: C.attached }
              (attachRun { C with attached := name :: C.attached } rest).1
              (attachRun { C with attached := name :: C.attached } rest).2.1
              (attachRun { C with attached := name :: C.attached } rest).2.2
              (stackOk_cons_of_new hso) rfl l₁' u l₂ hsplit' v hv
            rcases this with hv' | hv'
            · rcases List.mem_cons.mp hv' with rfl | hv'
              · exact Or.inr (List.mem_cons_self _ _)
              · exact Or.inl hv'
            · exact Or.inr (List.mem_cons_of_mem _ hv')
        · rw [if_neg hok] at h
          simp only [Prod.mk.injEq] at h
          obtain ⟨-, h₂, -⟩ := h
          rw [← h₂] at hsplit
          cases l₁ with
          | nil =>
            simp only [List.nil_append] at hsplit
            obtain ⟨rfl, -⟩ := List.cons.inj hsplit
            exact Or.inl (stackOk_head hso v hv)
          | cons w l₁' =>
            obtain ⟨-, hsplit'⟩ := List.cons.inj hsplit
            exact absurd hsplit'.symm
              (List.append_ne_nil_of_right_ne_nil _ (by simp))

/-! ### Invariants of the first `attach_` loop (`attachCollect`) -/

/-- The first loop only mutates `dependencies_`. -/
theorem attachCollect_state :
    ∀ (names : List String) (fuel : Nat) (C : CState) (stack : List String)
      (r : CState × Except CondottiError (List String)),
    attachCollect fuel C names stack = some r →
    r.1.loaded = C.loaded ∧ r.1.attached = C.attached := by
  intro names
  induction names with
  | nil =>
    intro fuel C stack r h
    simp only [attachCollect] at h
    obtain rfl := Option.some.inj h
    exact ⟨rfl, rfl⟩
  | cons name rest ih =>
    intro fuel C stack r h
    simp only [attachCollect] at h
    by_cases hat : name ∈ C.attached
    · rw [if_pos hat] at h
      exact ih fuel C stack r h
    · rw [if_neg hat] at h
      cases hlkd : lookupDeps C.dependencies name with
      | some deps =>
        simp only [hlkd] at h
        exact ih fuel C (stack ++ deps) r h
      | none =>
        simp only [hlkd] at h
        cases hcl : calculateList C.loaded name fuel with
        | none => rw [hcl] at h; simp at h
        | some exc =>
          cases exc with
          | error e =>
            rw [hcl] at h
            obtain rfl := Option.some.inj h
            exact ⟨rfl, rfl⟩
          | ok deps =>
            rw [hcl] at h
            exact ih fuel { C with dependencies := (name, deps) :: C.dependencies }
              (stack ++ deps) r h

/-- The first loop only appends to the work stack. -/
theorem attachCollect_stack_mono :
    ∀ (names : List String) (fuel : Nat) (C : CState) (stack out : List String)
      (C' : CState),
    attachCollect fuel C names stack = some (C', .ok out) → ∀ x ∈ stack, x ∈ out := by
  intro names
  induction names with
  | nil =>
    intro fuel C stack out C' h x hx
    simp only [attachCollect, Option.some.injEq, Prod.mk.injEq] at h
    obtain ⟨-, h₂⟩ := h
    exact (Except.ok.inj h₂) ▸ hx
  | cons name rest ih =>
    intro fuel C stack out C' h x hx
    simp only [attachCollect] at h
    by_cases hat : name ∈ C.attached
    · rw [if_pos hat] at h
      exact ih fuel C stack out C' h x hx
    · rw [if_neg hat] at h
      cases hlkd : lookupDeps C.dependencies name with
      | some deps =>
        simp only [hlkd] at h
        exact ih fuel C (stack ++ deps) out C' h x (List.mem_append_left _ hx)
      | none =>
        simp only [hlkd] at h
        cases hcl : calculateList C.loaded name fuel with
        | none => rw [hcl] at h; simp at h
        | some exc =>
          cases exc with
          | error e => rw [hcl] at h; simp at h
          | ok deps =>
            rw [hcl] at h
            exact ih fuel { C with dependencies := (name, deps) :: C.dependencies }
              (stack ++ deps) out C' h x (List.mem_append_left _ hx)

/-- Under a coherent cache, the first loop produces a stack in which every
entry's direct dependencies occur earlier (or are already attached), and
the cache stays coherent. -/
theorem attachCollect_stackOk :
    ∀ (names : List String) (fuel : Nat) (C : CState) (stack out : List String)
      (C' : CState),
    CacheOk C → StackOk (requiresOf C.loaded) C.attached stack →
    attachCollect fuel C names stack = some (C', .ok out) →
    StackOk (requiresOf C.loaded) C.attached out ∧ CacheOk C' := by
  intro names
  induction names with
  | nil =>
    intro fuel C stack out C' hco hso h
    simp only [attachCollect, Option.some.injEq, Prod.mk.injEq] at h
    obtain ⟨h₁, h₂⟩ := h
    subst h₁
    exact (Except.ok.inj h₂) ▸ ⟨hso, hco⟩
  | cons name rest ih =>
    intro fuel C stack out C' hco hso h
    simp only [attachCollect] at h
    by_cases hat : name ∈ C.attached
    · rw [if_pos hat] at h
      exact ih fuel C stack out C' hco hso h
    · rw [if_neg hat] at h
      cases hlkd : lookupDeps C.dependencies name with
      | some deps =>
        simp only [hlkd] at h
        obtain ⟨hself, -⟩ := hco name deps hlkd
        exact ih fuel C (stack ++ deps) out C' hco
          (stackOk_append_selfOrdered hso hself) h
      | none =>
        simp only [hlkd] at h
        cases hcl : calculateList C.loaded name fuel with
        | none => rw [hcl] at h; simp at h
        | some exc =>
          cases exc with
          | error e => rw [hcl] at h; simp at h
          | ok deps =>
            rw [hcl] at h
            have hcl' : calcVisit C.loaded name fuel [] [] name = some (.ok deps) := hcl
            obtain ⟨-, hm, -, -, hself, -⟩ := calcVisit_root_ok_spec hcl'
            have hco' : CacheOk { C with dependencies := (name, deps) :: C.dependencies } := by
              intro n l hl
              simp only [lookupDeps] at hl
              by_cases hn : name = n
              · rw [if_pos hn] at hl
                obtain rfl := Option.some.inj hl
                exact ⟨hself, hn ▸ hm⟩
              · rw [if_neg hn] at hl
                exact hco n l hl
            exact ih fuel { C with dependencies := (name, deps) :: C.dependencies }
              (stack ++ deps) out C' hco' (stackOk_append_selfOrdered hso hself) h

/-- If a requested name is not yet attached (and its cache entry, if any,
contains it), the first loop puts it on the work stack. -/
theorem attachCollect_mem :
    ∀ (names : List String) (fuel : Nat) (C : CState) (stack out : List String)
      (C' : CState) (m : String),
    m ∈ names → m ∉ C.attached →
    (∀ l, lookupDeps C.dependencies m = some l → m ∈ l) →
    attachCollect fuel C names stack = some (C', .ok out) → m ∈ out := by
  intro names
  induction names with
  | nil => intro fuel C stack out C' m hm; cases hm
  | cons name rest ih =>
    intro fuel C stack out C' m hm hnot hch h
    simp only [attachCollect] at h
    by_cases hat : name ∈ C.attached
    · rw [if_pos hat] at h
      rcases List.mem_cons.mp hm with rfl | hm'
      · exact absurd hat hnot
      · exact ih fuel C stack out C' m hm' hnot hch h
    · rw [if_neg hat] at h
      cases hlkd : lookupDeps C.dependencies name with
      | some deps =>
        simp only [hlkd] at h
        by_cases hnm : name = m
        · subst hnm
          exact attachCollect_stack_mono rest fuel C (stack ++ deps) out C' h name
            (List.mem_append_right _ (hch deps hlkd))
        · rcases List.mem_cons.mp hm with rfl | hm'
          · exact absurd rfl hnm
          · exact ih fuel C (stack ++ deps) out C' m hm' hnot hch h
      | none =>
        simp only [hlkd] at h
        cases hcl : calculateList C.loaded name fuel with
        | none => rw [hcl] at h; simp at h
        | some exc =>
          cases exc with
          | error e => rw [hcl] at h; simp at h
          | ok deps =>
            rw [hcl] at h
            have hcl' : calcVisit C.loaded name fuel [] [] name = some (.ok deps) := hcl
            obtain ⟨-, hmem, -, -, -, -⟩ := calcVisit_root_ok_spec hcl'
            by_cases hnm : name = m
            · subst hnm
              exact attachCollect_stack_mono rest fuel
                { C with dependencies := (name, deps) :: C.dependencies }
                (stack ++ deps) out C' h name (List.mem_append_right _ hmem)
            · rcases List.mem_cons.mp hm with rfl | hm'
              · exact absurd rfl hnm
              · refine ih fuel { C with dependencies := (name, deps) :: C.dependencies }
                  (stack ++ deps) out C' m hm' hnot ?_ h
                intro l hl
                simp only [lookupDeps] at hl
                rw [if_neg hnm] at hl
                exact hch l hl

/-- Errors escaping the first loop come from `calculate_` and are never
`ModuleAttachError`s. -/
theorem attachCollect_error_shape :
    ∀ (names : List String) (fuel : Nat) (C : CState) (stack : List String)
      (C' : CState) (e : CondottiError),
    attachCollect fuel C names stack = some (C', .error e) →
    ∀ m, e ≠ .moduleAttach m := by
  intro names
  induction names with
  | nil =>
    intro fuel C stack C' e h
    simp only [attachCollect, Option.some.injEq, Prod.mk.injEq] at h
    obtain ⟨-, h₂⟩ := h
    cases h₂
  | cons name rest ih =>
    intro fuel C stack C' e h
    simp only [attachCollect] at h
    by_cases hat : name ∈ C.attached
    · rw [if_pos hat] at h
      exact ih fuel C stack C' e h
    · rw [if_neg hat] at h
      cases hlkd : lookupDeps C.dependencies name with
      | some deps =>
        simp only [hlkd] at h
        exact ih fuel C (stack ++ deps) C' e h
      | none =>
        simp only [hlkd] at h
        cases hcl : calculateList C.loaded name fuel with
        | none => rw [hcl] at h; simp at h
        | some exc =>
          cases exc with
          | ok deps =>
            rw [hcl] at h
            exact ih fuel { C with dependencies := (name, deps) :: C.dependencies }
              (stack ++ deps) C' e h
          | error e' =>
            rw [hcl] at h
            simp only [Option.some.injEq, Prod.mk.injEq] at h
            obtain ⟨-, h₂⟩ := h
            obtain rfl := Except.error.inj h₂
            have hcl' : calcVisit C.loaded name fuel [] [] name = some (.error e') := hcl
            have hsh := calcVisit_error_shape fuel [] [] name e' hcl'
            intro m hh
            rcases hsh with ⟨v, hv⟩ | ⟨v, hv⟩ <;> rw [hv] at hh <;> cases hh

/-! ### `attach_` assembled -/

/-- An `attach_` run is either aborted by a `calculate_` error (empty
log) or is the second loop run on the stack the first loop collected. -/
theorem attach_cases {fuel : Nat} {C : CState} {names : List String}
    {r : CState × List String × Option CondottiError}
    (h : attach fuel C names = some r) :
    (∃ C₁ e, attachCollect fuel C names [] = some (C₁, .error e) ∧ r = (C₁, [], some e)) ∨
      ∃ C₁ stack, attachCollect fuel C names [] = some (C₁, .ok stack) ∧
        r = attachRun C₁ stack := by
  simp only [attach] at h
  cases hcol : attachCollect fuel C names [] with
  | none => rw [hcol] at h; cases h
  | some p =>
    obtain ⟨C₁, exc⟩ := p
    rw [hcol] at h
    cases exc with
    | error e => exact Or.inl ⟨C₁, e, rfl, (Option.some.inj h).symm⟩
    | ok stack => exact Or.inr ⟨C₁, stack, rfl, (Option.some.inj h).symm⟩

/-- The orchestrator `attach_` never mutates the registry. -/
theorem attach_loaded {fuel : Nat} {C : CState} {names : List String}
    {r : CState × List String × Option CondottiError}
    (h : attach fuel C names = some r) : r.1.loaded = C.loaded := by
  rcases attach_cases h with ⟨C₁, e, hcol, rfl⟩ | ⟨C₁, stack, hcol, rfl⟩
  · exact (attachCollect_state names fuel C [] (C₁, .error e) hcol).1
  · exact (attachRun_state stack C₁).1.trans
      (attachCollect_state names fuel C [] (C₁, .ok stack) hcol).1

/-- Registry lookups are preserved by appending more descriptors. -/
theorem lookupModule_append_left :
    ∀ (l₁ : List ModuleDescriptor) (m : String), (lookupModule l₁ m).isSome →
      ∀ l₂, lookupModule (l₁ ++ l₂) m = lookupModule l₁ m := by
  intro l₁
  induction l₁ with
  | nil => intro m h; simp [lookupModule] at h
  | cons d rest ih =>
    intro m h l₂
    by_cases hd : d.name = m
    · simp [lookupModule, hd]
    · simp only [lookupModule, if_neg hd] at h
      simp only [List.cons_append, lookupModule, if_neg hd]
      exact ih m h l₂

/-- C7: registering a module whose name is already present fails with
`DuplicatedModuleError` and leaves the registry unchanged; registering a
fresh name appends exactly that one entry; existing lookups are never
removed or replaced by a registration, and `attach_` (the only other
state-mutating operation modelled) never mutates the registry at all. -/
theorem condottiAdd_spec
    (loaded : List ModuleDescriptor) (name version : String)
    (requires : List String) (initOk : Bool) :
    ((lookupModule loaded name).isSome →
      condottiAdd loaded name version requires initOk =
        (loaded, some (.duplicatedModule name))) ∧
    (¬ (lookupModule loaded name).isSome →
      condottiAdd loaded name version requires initOk =
        (loaded ++ [⟨name, version, requires, initOk⟩], none)) ∧
    (∀ m, (lookupModule loaded m).isSome →
      lookupModule (condottiAdd loaded name version requires initOk).1 m =
        lookupModule loaded m) ∧
    ∀ (fuel : Nat) (C : CState) (names : List String)
      (r : CState × List String × Option CondottiError),
      attach fuel C names = some r → r.1.loaded = C.loaded := by
  refine ⟨fun h => by simp [condottiAdd, h], fun h => by simp [condottiAdd, h], ?_,
    fun fuel C names r h => attach_loaded h⟩
  intro m hm
  by_cases hdup : (lookupModule loaded name).isSome
  · simp [condottiAdd, hdup]
  · simp only [condottiAdd, hdup, if_neg, Bool.false_eq_true, if_false]
    exact lookupModule_append_left loaded m hm _

/-- C7 witness: re-registering `A` over `[descSolo]` is rejected with the
registry unchanged; registering `A` over the empty registry appends it. -/
theorem condottiAdd_spec_witness :
    condottiAdd [descSolo] "A" "0.0.1" [] true =
        ([descSolo], some (.duplicatedModule "A")) ∧
      condottiAdd [] "A" "0.0.1" [] true = ([⟨"A", "0.0.1", [], true⟩], none) := by
  obtain ⟨hdup, -, -, -⟩ := condottiAdd_spec [descSolo] "A" "0.0.1" [] true
  obtain ⟨-, hfresh, -, -⟩ := condottiAdd_spec [] "A" "0.0.1" [] true
  exact ⟨hdup (by decide), hfresh (by decide)⟩

/-- C3: attach is idempotent per module.  If `m` is not yet attached and
its cache entry (if any) contains it, then after a first successful
`attach_([m])` the entry function of `m` was invoked exactly once (`m` is
in the invocation log, which has no duplicates), `m` is recorded in the
attached set, a second `attach_([m])` is an immediate no-op (same state,
empty log, no error), and any later attach request containing `m` skips
its entry function. -/
theorem attach_idempotent
    (fuel fuel₂ : Nat) (C₀ : CState) (m : String) (C₁ : CState) (log₁ : List String)
    (hm : m ∉ C₀.attached)
    (hcache : ∀ l, lookupDeps C₀.dependencies m = some l → m ∈ l)
    (h : attach fuel C₀ [m] = some (C₁, log₁, none)) :
    m ∈ log₁ ∧ log₁.Nodup ∧ m ∈ C₁.attached ∧
      attach fuel₂ C₁ [m] = some (C₁, [], none) ∧
      ∀ (fuel₃ : Nat) (names₂ : List String) (C₂ : CState) (log₂ : List String)
        (e₂ : Option CondottiError),
        attach fuel₃ C₁ names₂ = some (C₂, log₂, e₂) → m ∉ log₂ := by
  rcases attach_cases h with ⟨C₁', e, hcol, heq⟩ | ⟨C₁', stack, hcol, heq⟩
  · simp at heq
  · obtain ⟨-, hatt⟩ := attachCollect_state [m] fuel C₀ [] (C₁', .ok stack) hcol
    have hrun : attachRun C₁' stack = (C₁, log₁, none) := heq.symm
    have hmem : m ∈ stack :=
      attachCollect_mem [m] fuel C₀ [] stack C₁' m (List.mem_cons_self _ _) hm hcache hcol
    obtain ⟨hiff, hnd, -, hstackmem, -⟩ := attachRun_success_spec stack C₁' C₁ log₁ hrun
    have hma : m ∈ C₁.attached := hstackmem m hmem
    have hmlog : m ∈ log₁ := by
      rcases (hiff m).mp hma with h' | h'
      · rw [hatt] at h'; exact absurd h' hm
      · exact h'
    refine ⟨hmlog, hnd, hma, ?_, ?_⟩
    · simp [attach, attachCollect, hma, attachRun]
    · intro fuel₃ names₂ C₂ log₂ e₂ h₂ hmm
      rcases attach_cases h₂ with ⟨C₂', e', hcol₂, heq₂⟩ | ⟨C₂', stack₂, hcol₂, heq₂⟩
      · simp only [Prod.mk.injEq] at heq₂
        obtain ⟨-, h₂₂, -⟩ := heq₂
        rw [h₂₂] at hmm
        cases hmm
      · obtain ⟨-, hatt₂⟩ := attachCollect_state names₂ fuel₃ C₁ [] (C₂', .ok stack₂) hcol₂
        have hmono := attachRun_mono stack₂ C₂' m (by rw [hatt₂]; exact hma)
        have hlog : log₂ = (attachRun C₂' stack₂).2.1 := by rw [← heq₂]
        exact hmono.2 (hlog ▸ hmm)

/-- C3 witness: the chain registry, first `attach_(["A"])` at fuel 5 from
the fresh state. -/
theorem attach_idempotent_witness :
    "A" ∈ (["C", "B", "A"] : List String) ∧ (["C", "B", "A"] : List String).Nodup ∧
      "A" ∈ (⟨loadedABC, [("A", ["C", "B", "A"])], ["A", "B", "C"]⟩ : CState).attached ∧
      attach 5 (⟨loadedABC, [("A", ["C", "B", "A"])], ["A", "B", "C"]⟩ : CState) ["A"] =
        some (⟨loadedABC, [("A", ["C", "B", "A"])], ["A", "B", "C"]⟩, [], none) ∧
      ∀ (fuel₃ : Nat) (names₂ : List String) (C₂ : CState) (log₂ : List String)
        (e₂ : Option CondottiError),
        attach fuel₃ (⟨loadedABC, [("A", ["C", "B", "A"])], ["A", "B", "C"]⟩ : CState)
            names₂ = some (C₂, log₂, e₂) → "A" ∉ log₂ :=
  attach_idempotent 4 5 stateABC "A"
    ⟨loadedABC, [("A", ["C", "B", "A"])], ["A", "B", "C"]⟩ ["C", "B", "A"]
    (by decide) (fun l hl => by simp [stateABC, lookupDeps] at hl) (by decide)

/-- C4: with registered modules `A → [B]`, `B → [C]`, `C → []`,
`attach_(["A"])` invokes the entry functions exactly in the order
`C, B, A` and reports a `null` error; and in general (for any state with
a coherent dependency cache) whenever a module is invoked by `attach_`,
each of its direct dependencies was attached before the call or invoked
earlier in the same call — dependency initializers complete before their
dependents begin. -/
theorem attach_dependency_order :
    (attach 4 stateABC ["A"] =
      some (⟨loadedABC, [("A", ["C", "B", "A"])], ["A", "B", "C"]⟩, ["C", "B", "A"],
        none)) ∧
    ∀ (fuel : Nat) (C₀ : CState) (names : List String) (C₁ : CState)
      (log : List String) (e : Option CondottiError),
      CacheOk C₀ → attach fuel C₀ names = some (C₁, log, e) →
      ∀ l₁ u l₂, log = l₁ ++ u :: l₂ → ∀ v ∈ requiresOf C₀.loaded u,
        v ∈ C₀.attached ∨ v ∈ l₁ := by
  refine ⟨by decide, ?_⟩
  intro fuel C₀ names C₁ log e hco h l₁ u l₂ hsplit v hv
  rcases attach_cases h with ⟨C₁', e', hcol, heq⟩ | ⟨C₁', stack, hcol, heq⟩
  · simp only [Prod.mk.injEq] at heq
    obtain ⟨-, hlog, -⟩ := heq
    rw [hlog] at hsplit
    exact absurd hsplit.symm (List.append_ne_nil_of_right_ne_nil _ (by simp))
  · obtain ⟨-, hatt⟩ := attachCollect_state names fuel C₀ [] (C₁', .ok stack) hcol
    have hempty : StackOk (requiresOf C₀.loaded) C₀.attached [] := by
      intro s₁ u' s₂ hs
      exact absurd hs.symm (List.append_ne_nil_of_right_ne_nil _ (by simp))
    obtain ⟨hsok, -⟩ :=
      attachCollect_stackOk names fuel C₀ [] stack C₁' hco hempty hcol
    have hrun : attachRun C₁' stack = (C₁, log, e) := heq.symm
    have := attachRun_order stack C₁' C₁ log e (by rw [hatt]; exact hsok) hrun
      l₁ u l₂ hsplit v hv
    rw [hatt] at this
    exact this

/-- C4 witness: in the concrete run `attach_(["A"])` over the chain, the
dependency `B` of the entry `A` (invoked last) was invoked earlier. -/
theorem attach_dependency_order_witness :
    "B" ∈ stateABC.attached ∨ "B" ∈ (["C", "B"] : List String) :=
  attach_dependency_order.2 4 stateABC ["A"]
    ⟨loadedABC, [("A", ["C", "B", "A"])], ["A", "B", "C"]⟩ ["C", "B", "A"] none
    (fun n l hl => by simp [stateABC, lookupDeps] at hl) (by decide)
    ["C", "B"] "A" [] rfl "B" (by decide)

/-- C5: if a module's entry function throws during an `attach_` call, the
call reports a `ModuleAttachError` identifying that module (which is
registered with a throwing entry function), no further entry functions in
that call run (the failing module is the last entry of the invocation
log), modules invoked earlier in the same call remain attached, and
previously attached modules stay attached.  Concretely, for `A → [B]`
with the entry function of `A` throwing, `attach_(["A","B"])` invokes `B` then
`A`, reports `ModuleAttachError` for `A`, and leaves `B` attached. -/
theorem attach_initializer_error :
    (attach 3 stateFail ["A", "B"] =
      some (⟨loadedFail, [("B", ["B"]), ("A", ["B", "A"])], ["B"]⟩, ["B", "A"],
        some (.moduleAttach "A"))) ∧
    ∀ (fuel : Nat) (C₀ : CState) (names : List String) (C₁ : CState)
      (log : List String) (m : String),
      attach fuel C₀ names = some (C₁, log, some (.moduleAttach m)) →
      (∃ d, lookupModule C₁.loaded m = some d ∧ d.initOk = false) ∧
        log.getLast? = some m ∧ (∀ x ∈ log, x ≠ m → x ∈ C₁.attached) ∧
        ∀ x ∈ C₀.attached, x ∈ C₁.attached := by
  refine ⟨by decide, ?_⟩
  intro fuel C₀ names C₁ log m h
  rcases attach_cases h with ⟨C₁', e', hcol, heq⟩ | ⟨C₁', stack, hcol, heq⟩
  · simp only [Prod.mk.injEq] at heq
    obtain ⟨-, -, he⟩ := heq
    exact absurd (Option.some.inj he).symm (attachCollect_error_shape names fuel C₀ [] C₁' e' hcol m)
  · obtain ⟨hload, hatt⟩ := attachCollect_state names fuel C₀ [] (C₁', .ok stack) hcol
    have hrun : attachRun C₁' stack = (C₁, log, some (.moduleAttach m)) := heq.symm
    obtain ⟨Δ', hΔ, ⟨d, hd, hdf⟩, hiff, hmnot⟩ :=
      attachRun_attach_error_spec stack C₁' C₁ log m hrun
    have hC₁loaded : C₁.loaded = C₀.loaded := by
      have := (attachRun_state stack C₁').1
      rw [hrun] at this
      exact this.trans hload
    refine ⟨⟨d, by rw [hC₁loaded, ← hload]; exact hd, hdf⟩, ?_, ?_, ?_⟩
    · rw [hΔ]
      exact List.getLast?_concat _
    · intro x hx hxm
      rw [hΔ] at hx
      rcases List.mem_append.mp hx with hx | hx
      · exact (hiff x).mpr (Or.inr hx)
      · rcases List.mem_singleton.mp hx with rfl
        exact absurd rfl hxm
    · intro x hx
      exact (hiff x).mpr (Or.inl (by rw [hatt]; exact hx))

/-- C5 witness: the concrete failing scenario, fed through the general
part of the theorem. -/
theorem attach_initializer_error_witness :
    (∃ d, lookupModule
        (⟨loadedFail, [("B", ["B"]), ("A", ["B", "A"])], ["B"]⟩ : CState).loaded "A" =
          some d ∧ d.initOk = false) ∧
      (["B", "A"] : List String).getLast? = some "A" ∧
      (∀ x ∈ (["B", "A"] : List String), x ≠ "A" →
        x ∈ (⟨loadedFail, [("B", ["B"]), ("A", ["B", "A"])], ["B"]⟩ : CState).attached) ∧
      ∀ x ∈ stateFail.attached,
        x ∈ (⟨loadedFail, [("B", ["B"]), ("A", ["B", "A"])], ["B"]⟩ : CState).attached :=
  attach_initializer_error.2 3 stateFail ["A", "B"]
    ⟨loadedFail, [("B", ["B"]), ("A", ["B", "A"])], ["B"]⟩ ["B", "A"] "A" (by decide)

/-- C10: a module name is added to the attached set only after its entry
function returns without throwing: after an `attach_` call fails with
`ModuleAttachError` for `m`, `m` is not in the attached set — the
attached set grew by exactly the successfully invoked names (every name
of the log except the failing `m`).  Concretely, a repeated
`attach_(["A"])` over `A → [B]` with `A` throwing invokes the entry
function of `A` again. -/
theorem attach_failure_not_recorded :
    (∀ (fuel : Nat) (C₀ : CState) (names : List String) (C₁ : CState)
      (log : List String) (m : String),
      attach fuel C₀ names = some (C₁, log, some (.moduleAttach m)) →
      m ∉ C₁.attached ∧
        ∀ x, x ∈ C₁.attached ↔ x ∈ C₀.attached ∨ (x ∈ log ∧ x ≠ m)) ∧
    (attach 3 stateFail ["A"] =
        some (⟨loadedFail, [("A", ["B", "A"])], ["B"]⟩, ["B", "A"],
          some (.moduleAttach "A")) ∧
      attach 3 (⟨loadedFail, [("A", ["B", "A"])], ["B"]⟩ : CState) ["A"] =
        some (⟨loadedFail, [("A", ["B", "A"])], ["B"]⟩, ["A"],
          some (.moduleAttach "A")) ∧ "A" ∈ (["A"] : List String)) := by
  refine ⟨?_, by decide, by decide, by decide⟩
  intro fuel C₀ names C₁ log m h
  rcases attach_cases h with ⟨C₁', e', hcol, heq⟩ | ⟨C₁', stack, hcol, heq⟩
  · simp only [Prod.mk.injEq] at heq
    obtain ⟨-, -, he⟩ := heq
    exact absurd (Option.some.inj he).symm (attachCollect_error_shape names fuel C₀ [] C₁' e' hcol m)
  · obtain ⟨-, hatt⟩ := attachCollect_state names fuel C₀ [] (C₁', .ok stack) hcol
    have hrun : attachRun C₁' stack = (C₁, log, some (.moduleAttach m)) := heq.symm
    obtain ⟨Δ', hΔ, -, hiff, hmnot⟩ :=
      attachRun_attach_error_spec stack C₁' C₁ log m hrun
    refine ⟨hmnot, ?_⟩
    intro x
    rw [hiff x, hatt]
    constructor
    · rintro (hx | hx)
      · exact Or.inl hx
      · refine Or.inr ⟨by rw [hΔ]; exact List.mem_append_left _ hx, ?_⟩
        rintro rfl
        exact hmnot ((hiff x).mpr (Or.inr hx))
    · rintro (hx | ⟨hx, hxm⟩)
      · exact Or.inl hx
      · rw [hΔ] at hx
        rcases List.mem_append.mp hx with hx | hx
        · exact Or.inr hx
        · rcases List.mem_singleton.mp hx with rfl
          exact absurd rfl hxm

/-- C10 witness: the concrete failing attach, fed through the general
part of the theorem. -/
theorem attach_failure_not_recorded_witness :
    "A" ∉ (⟨loadedFail, [("A", ["B", "A"])], ["B"]⟩ : CState).attached ∧
      ∀ x, x ∈ (⟨loadedFail, [("A", ["B", "A"])], ["B"]⟩ : CState).attached ↔
        x ∈ stateFail.attached ∨ (x ∈ (["B", "A"] : List String) ∧ x ≠ "A") :=
  attach_failure_not_recorded.1 3 stateFail ["A"]
    ⟨loadedFail, [("A", ["B", "A"])], ["B"]⟩ ["B", "A"] "A" (by decide)

/-! ### Fetch failure in the `use` loop -/

/-- C6: whenever the `use` loop terminates because the Fetch Port
(loader) reported a failure, the callback receives that fetch error
(propagated verbatim by the `done` closure — the design's
`ModuleFetchError`), no entry function of that call was invoked (the
invocation log is empty, as `attach_` never ran) and the attached set is
unchanged — no partial attachment occurs for that call.  Concretely, for
`A → [B]` with `B` unregistered and the loader failing on `B`,
`use(["A"])` from an empty registry ends with the loader's error, an
empty log, and nothing attached. -/
theorem use_fetch_error :
    (∀ (fuel : Nat) (fetch : List String → Except String (List ModuleDescriptor))
      (C : CState) (params : List String) (stack : List (List String))
      (C' : CState) (log : List String) (e : String),
      useLoop fetch fuel C params stack = some (C', log, some (.fetchFailed e)) →
      log = [] ∧ C'.attached = C.attached) ∧
    use fetchFailB 5 ⟨[], [], []⟩ ["A"] =
      some (⟨[descA], [], []⟩, [], some (.fetchFailed "ENOENT")) := by
  refine ⟨?_, by decide⟩
  intro fuel
  induction fuel with
  | zero => intro fetch C params stack C' log e h; simp [useLoop] at h
  | succ fuel ih =>
    intro fetch C params stack C' log e h
    cases stack with
    | nil =>
      simp only [useLoop] at h
      cases hattach : attach fuel C params with
      | none => rw [hattach] at h; cases h
      | some r =>
        obtain ⟨C₁, lg, e₁⟩ := r
        rw [hattach] at h
        simp only [Option.some.injEq, Prod.mk.injEq] at h
        obtain ⟨-, -, he⟩ := h
        cases e₁ with
        | none => cases he
        | some ec => cases Option.some.inj he
    | cons requires stackRest =>
      simp only [useLoop] at h
      by_cases hreq : requires.isEmpty
      · rw [if_pos hreq] at h
        exact ih fetch C params stackRest C' log e h
      · rw [if_neg hreq] at h
        by_cases hfil : (filterUnloaded C.loaded requires []).isEmpty
        · rw [if_pos hfil] at h
          exact ih fetch C params stackRest C' log e h
        · rw [if_neg hfil] at h
          cases hf : fetch (filterUnloaded C.loaded requires []) with
          | error e' =>
            simp only [hf] at h
            simp only [Option.some.injEq, Prod.mk.injEq] at h
            obtain ⟨hC, hlog, -⟩ := h
            exact ⟨hlog.symm, by rw [← hC]⟩
          | ok descs =>
            simp only [hf] at h
            cases hcd : collectDependencies (C.loaded ++ descs) (filterUnloaded C.loaded requires []) with
            | error ec =>
              simp only [hcd] at h
              simp only [Option.some.injEq, Prod.mk.injEq] at h
              obtain ⟨-, -, he⟩ := h
              cases he
            | ok deps =>
              simp only [hcd] at h
              have := ih fetch { C with loaded := C.loaded ++ descs } params
                (if deps.isEmpty then stackRest else stackRest ++ [deps]) C' log e h
              exact this

/-- C6 witness: the general no-partial-attachment statement instantiated
on the concrete failing-fetch scenario. -/
theorem use_fetch_error_witness :
    ([] : List String) = [] ∧
      (⟨[descA], [], []⟩ : CState).attached = (⟨[], [], []⟩ : CState).attached :=
  use_fetch_error.1 5 fetchFailB ⟨[], [], []⟩ ["A"] [["A"]]
    ⟨[descA], [], []⟩ [] "ENOENT" (by decide)

end Condotti
